import Mathlib

/-!
Verification of the QR interoperability benchmark engine (qr-benchmarks).

This file shallowly embeds the load-bearing Go code of the repository:

* the geometry calculator (`internal/testdata`: CalculateModuleCount,
  CalculateModulePixelSize, IsFractionalModuleSize, CalculateOptimalPixelSize);
* the deterministic corpus generator (`internal/testdata/generator.go`:
  generateBinary on top of the standard library pseudo-random byte reader);
* the matrix runner (`internal/matrix`: Runner.runTest, Runner.RunAll) with
  its adapter contracts (`internal/encoders`, `internal/decoders`);
* the markdown reporter helper hasNonMonotonicFailures
  (`pkg/report/markdown.go`);
* the result aggregator (the Hugo data generator: computeEncoderStats,
  computeDecoderStats, computeCombinations, computeSummary).

Modelling conventions: Go `int` is modelled by unbounded `ℤ` (exact for the
magnitudes the program manipulates, which stay far below 2^63); Go `float64`
is modelled by `ℚ` — every floating computation appearing in the verified
statements is exact (divisions of an integer multiple by its factor, and
small integer counters), so the rational model agrees with IEEE float64
there; Go maps are modelled by association lists in first-insertion order,
one fixed realisation of the unspecified Go map iteration order; durations
measured with the wall clock are supplied by duration oracles carried by the
adapter records; Go `(T, error)` returns are modelled with `Except String T`.
-/

namespace QRBench

/-! ## Geometry calculator (internal/testdata, part of package testdata) -/

/-- Quiet zone size in modules (`QuietZoneModules = 4`). -/
def QuietZoneModules : ℤ := 4

/-- Embeds `CalculateModuleCount`: `17 + 4*version` for version in [1,40],
0 (invalid-input sentinel) otherwise. The Go function is total and never
panics; the embedding is a total function. -/
def CalculateModuleCount (version : ℤ) : ℤ :=
  if version < 1 ∨ version > 40 then 0 else 17 + 4 * version

/-- Embeds `CalculateModulePixelSize`: real-valued
`pixelSize / (moduleCount + quietZone)`, 0 on non-positive
pixelSize/moduleCount or negative quietZone. The Go function computes in
float64; the division used by the verified statements is exact, so ℚ is a
faithful model there. -/
def CalculateModulePixelSize (pixelSize moduleCount quietZone : ℤ) : ℚ :=
  if pixelSize ≤ 0 ∨ moduleCount ≤ 0 ∨ quietZone < 0 then 0
  else (pixelSize : ℚ) / ((moduleCount : ℚ) + (quietZone : ℚ))

/-- Embeds `IsFractionalModuleSize`: true iff the value differs from its
floor (`modulePixelSize != math.Floor(modulePixelSize)`), an exact test. -/
def IsFractionalModuleSize (modulePixelSize : ℚ) : Bool :=
  decide (modulePixelSize ≠ ((⌊modulePixelSize⌋ : ℤ) : ℚ))

/-- Embeds `CalculateOptimalPixelSize`: 0 on invalid input, otherwise the
smallest multiple of `moduleCount + quietZone` that is at least 100, computed
as `totalModules * ((minSize + totalModules - 1) / totalModules)` with
integer division. All division operands are positive in the reachable
branch, where Go division (truncating) and Lean integer division agree. -/
def CalculateOptimalPixelSize (moduleCount quietZone : ℤ) : ℤ :=
  if moduleCount ≤ 0 ∨ quietZone < 0 then 0
  else
    let totalModules := moduleCount + quietZone
    let minSize : ℤ := 100
    let multiplier := (minSize + totalModules - 1) / totalModules
    totalModules * multiplier

/-! ## Corpus generator (internal/testdata/generator.go) -/

/-- Embeds the byte-production loop of the standard library random reader
used by `generateBinary` via `rng.Read(data)`. The reader consumes one
63-bit value of the underlying source per 7 output bytes: whenever `pos`
reaches 0 it fetches the next source value (index `ctr`), sets `pos := 7`,
then each step emits the low byte of `val`, shifts `val` right by 8 bits and
decrements `pos`. `src` abstracts the deterministic Int63 output stream of
`rand.NewSource 42`; `fuel` is the number of bytes still to produce. -/
def goRandRead (src : ℕ → ℕ) : ℕ → ℕ → ℕ → ℕ → List ℕ
  | _, _, _, 0 => []
  | ctr, pos, val, Nat.succ n =>
    if pos = 0 then
      (src ctr % 256) :: goRandRead src (ctr + 1) 6 (src ctr / 256) n
    else
      (val % 256) :: goRandRead src ctr (pos - 1) (val / 256) n

/-- Embeds `generateBinary`: empty for non-positive size, otherwise `size`
bytes read from a fresh reader over the fixed-seed source. Each Go call
builds `rand.NewSource(42)` afresh, so every call observes the same stream;
the embedding makes that stream an explicit parameter `src` and starts the
reader in its initial state (counter 0, position 0, value 0). -/
def generateBinary (src : ℕ → ℕ) (size : ℤ) : List ℕ :=
  if size ≤ 0 then [] else goRandRead src 0 0 0 size.toNat

/-! ## Adapter contracts and matrix runner (internal/encoders,
internal/decoders, internal/matrix) -/

/-- Embeds the encoders package constant `ErrorCorrectionM = "M"`. -/
def ErrorCorrectionM : String := "M"

/-- Embeds `encoders.EncodeOptions` ({ErrorCorrectionLevel, PixelSize}). -/
structure EncodeOptions where
  errorCorrectionLevel : String
  pixelSize : ℤ
deriving DecidableEq, Repr

/-- Embeds the `encoders.Encoder` interface: a name, `Encode` returning an
image or an error, and `IsCapacityError` classifying errors. The
`encodeDuration` oracle models the wall-clock duration measured around the
`Encode` call (`time.Since(encodeStart)`). -/
structure Encoder (Image : Type) where
  name : String
  encode : List ℕ → EncodeOptions → Except String Image
  isCapacityError : String → Bool
  encodeDuration : List ℕ → EncodeOptions → ℕ

/-- Embeds the `decoders.Decoder` interface: a name and `Decode` returning
payload bytes or an error, with a duration oracle for the measured decode
time. -/
structure Decoder (Image : Type) where
  name : String
  decode : Image → Except String (List ℕ)
  decodeDuration : Image → ℕ

/-- Embeds `testdata.TestCase`. `contentType` keeps Go's integer-typed
`ContentType` (0 numeric, 1 alphanumeric, 2 binary, 3 UTF-8). -/
structure TestCase where
  name : String
  data : List ℕ
  dataSize : ℤ
  pixelSize : ℤ
  contentType : ℤ
  errorCorrectionLevel : String
deriving DecidableEq, Repr

/-- Embeds `contentTypeToString` from the matrix package. -/
def contentTypeToString (ct : ℤ) : String :=
  if ct = 0 then "numeric"
  else if ct = 1 then "alphanumeric"
  else if ct = 2 then "binary"
  else if ct = 3 then "utf8"
  else "unknown"

/-- Embeds the discriminated error carried by `matrix.TestResult.Error`:
`EncodeError`, `DecodeError` or `DataMismatchError{Expected, Got}`; `none`
at the result level means success. -/
inductive TestError where
  | encodeErr (msg : String)
  | decodeErr (msg : String)
  | dataMismatch (expected got : ℤ)
deriving DecidableEq, Repr

/-- Embeds `matrix.TestResult`. Fields never assigned by `runTest` keep Go
zero values (empty string / 0 / false / nil error). -/
structure TestResult where
  encoderName : String
  decoderName : String
  dataSize : ℤ
  pixelSize : ℤ
  contentType : String
  errorCorrectionLevel : String
  qrVersion : ℤ
  moduleCount : ℤ
  modulePixelSize : ℚ
  isFractionalModule : Bool
  encodeTime : ℕ
  decodeTime : ℕ
  error : Option TestError
  isCapacityExceeded : Bool
deriving DecidableEq, Repr

/-- Embeds `matrix.CompatibilityMatrix`. The Go code collects the distinct
data and pixel sizes through a map; the embedding records them in
first-occurrence order, one realisation of the unspecified map order. -/
structure CompatibilityMatrix where
  results : List TestResult
  encoders : List String
  decoders : List String
  dataSizes : List ℤ
  pixelSizes : List ℤ

/-- Embeds `config.Config`, restricted to the field the verified claims
mention: `Timeout` (the per-decoder-operation timeout, default 10s). -/
structure Config where
  timeout : ℕ
deriving DecidableEq, Repr

/-- Embeds `matrix.Runner`: encoders, decoders, test cases and config. -/
structure Runner (Image : Type) where
  encoders : List (Encoder Image)
  decoders : List (Decoder Image)
  testCases : List TestCase
  config : Config

/-- Embeds `testdata.DetectQRVersion`: the placeholder always reports that
detection is not yet implemented (the image is never nil in the model since
it came from a successful encode). -/
def DetectQRVersion {Image : Type} (_img : Image) : Except String ℤ :=
  .error "QR version detection not yet implemented"

/-- Distinct keys of a list in first-occurrence order; models the key set of
a Go map filled by one pass over the list. -/
def firstSeenKeys {α κ : Type} [DecidableEq κ] (keyf : α → κ) (l : List α) : List κ :=
  l.foldl (fun ks r => if keyf r ∈ ks then ks else ks ++ [keyf r]) []

/-- Embeds `Runner.runTest`: one encode→(version probe)→decode→validate
cycle. The result starts from the field initialisation at the top of the Go
function (remaining fields at Go zero values), the encode options hard-code
error correction level "M", encode failure records the capacity
classification and stops, the version probe always fails (leaving geometry
sentinels), decode failure stops, and finally the decoded bytes are compared
with the original payload. `r.config` is never consulted, as in the source. -/
def Runner.runTest {Image : Type} (r : Runner Image) (testCase : TestCase)
    (enc : Encoder Image) (dec : Decoder Image) : TestResult :=
  let base : TestResult :=
    { encoderName := enc.name
      decoderName := dec.name
      dataSize := testCase.dataSize
      pixelSize := testCase.pixelSize
      contentType := contentTypeToString testCase.contentType
      errorCorrectionLevel := ""
      qrVersion := -1
      moduleCount := 0
      modulePixelSize := 0
      isFractionalModule := false
      encodeTime := 0
      decodeTime := 0
      error := none
      isCapacityExceeded := false }
  let encodeOpts : EncodeOptions :=
    { errorCorrectionLevel := ErrorCorrectionM, pixelSize := testCase.pixelSize }
  let encodeTime := enc.encodeDuration testCase.data encodeOpts
  match enc.encode testCase.data encodeOpts with
  | .error e =>
      { base with
        encodeTime := encodeTime
        error := some (.encodeErr e)
        isCapacityExceeded := enc.isCapacityError e }
  | .ok img =>
      let withGeo : TestResult :=
        match DetectQRVersion img with
        | .ok version =>
            if 0 < version then
              let moduleCount := CalculateModuleCount version
              let modulePixelSize :=
                CalculateModulePixelSize testCase.pixelSize moduleCount QuietZoneModules
              { base with
                qrVersion := version
                moduleCount := moduleCount
                modulePixelSize := modulePixelSize
                isFractionalModule := IsFractionalModuleSize modulePixelSize }
            else base
        | .error _ => base
      let decodeTime := dec.decodeDuration img
      match dec.decode img with
      | .error e =>
          { withGeo with
            encodeTime := encodeTime
            decodeTime := decodeTime
            error := some (.decodeErr e) }
      | .ok decodedData =>
          if testCase.data ≠ decodedData then
            { withGeo with
              encodeTime := encodeTime
              decodeTime := decodeTime
              error := some (.dataMismatch testCase.data.length decodedData.length) }
          else
            { withGeo with
              encodeTime := encodeTime
              decodeTime := decodeTime
              error := none }

/-- Embeds `Runner.RunAll`: fail fast on an empty encoder, decoder or
test-case list, otherwise run every (test case, encoder, decoder)
combination in the source's loop nesting order and assemble the
compatibility matrix. -/
def Runner.RunAll {Image : Type} (r : Runner Image) : Except String CompatibilityMatrix :=
  if r.encoders.length = 0 then .error "no encoders provided"
  else if r.decoders.length = 0 then .error "no decoders provided"
  else if r.testCases.length = 0 then .error "no test cases provided"
  else
    let results :=
      r.testCases.flatMap fun testCase =>
        r.encoders.flatMap fun encoder =>
          r.decoders.map fun decoder =>
            r.runTest testCase encoder decoder
    .ok
      { results := results
        encoders := r.encoders.map (fun e => e.name)
        decoders := r.decoders.map (fun d => d.name)
        dataSizes := firstSeenKeys (fun tc => tc.dataSize) r.testCases
        pixelSizes := firstSeenKeys (fun tc => tc.pixelSize) r.testCases }

/-! ## Markdown reporter helper (pkg/report/markdown.go) -/

/-- Insertion of one element into a list sorted ascending by `measure`;
building block for the `sort.Slice` calls of the reporter. `sort.Slice` is
an arbitrary (unstable) comparison sort; insertion sort is one deterministic
realisation, and for the pairwise-distinct measures exercised by the claims
every comparison sort produces the same list. -/
def insertAscBy {α : Type} (measure : α → ℤ) (x : α) : List α → List α
  | [] => [x]
  | y :: t => if measure x < measure y then x :: y :: t else y :: insertAscBy measure x t

/-- Sort ascending by `measure` (insertion sort), realising
`sort.Slice(group, group[i].PixelSize < group[j].PixelSize)`. -/
def sortAscBy {α : Type} (measure : α → ℤ) (l : List α) : List α :=
  l.foldr (insertAscBy measure) []

/-- The window scan of `hasNonMonotonicFailures`: true iff three consecutive
entries are success, failure, success (`Error == nil`, `!= nil`, `== nil`). -/
def adjacentSuccessFailSuccess : List TestResult → Bool
  | a :: b :: c :: t =>
      (decide (a.error = none) && decide (b.error ≠ none) && decide (c.error = none)) ||
        adjacentSuccessFailSuccess (b :: c :: t)
  | _ => false

/-- Embeds `MarkdownReporter.hasNonMonotonicFailures`: group the results by
data size (map modelled in first-occurrence key order; the boolean is an OR
over groups, hence independent of that order), sort each group by pixel size
ascending, and look for a success-failure-success window of consecutive
entries. -/
def hasNonMonotonicFailures (results : List TestResult) : Bool :=
  (firstSeenKeys (fun r => r.dataSize) results).any fun ds =>
    adjacentSuccessFailSuccess
      (sortAscBy (fun r => r.pixelSize) (results.filter fun r => r.dataSize = ds))

/-! ## Result aggregator (the Hugo data generator shipped with the repo:
computeEncoderStats, computeDecoderStats, computeCombinations,
computeSummary over RawTestResult records) -/

/-- Embeds `RawTestResult`, the flat JSON outcome record consumed by the
aggregator. -/
structure RawTestResult where
  encoder : String
  decoder : String
  dataSize : ℤ
  pixelSize : ℤ
  contentType : String
  success : Bool
  errorType : String
  isCapacityExceeded : Bool
  encodeTimeMs : ℚ
  decodeTimeMs : ℚ
deriving DecidableEq, Repr

/-- Association-list update with default: the entry at key `k` is replaced
by its update, a missing entry is appended as `u init`. Models
`if m[key] == nil { m[key] = new }; m[key].update()` on a Go map, keeping
first-insertion order. -/
def updAssoc {κ α : Type} [DecidableEq κ] (k : κ) (u : α → α) (init : α) :
    List (κ × α) → List (κ × α)
  | [] => [(k, u init)]
  | (k₁, a) :: t => if k = k₁ then (k₁, u a) :: t else (k₁, a) :: updAssoc k u init t

/-- One pass of map-accumulation over a list: for each record, update the
entry at its key. Models the aggregation loops of the Hugo data generator. -/
def aggFold {ρ κ α : Type} [DecidableEq κ] (keyf : ρ → κ) (u : ρ → α → α) (init : α)
    (l : List ρ) : List (κ × α) :=
  l.foldl (fun m r => updAssoc (keyf r) (u r) init m) []

/-- Association-list lookup with decidable key equality. -/
def findA {κ α : Type} [DecidableEq κ] : List (κ × α) → κ → Option α
  | [], _ => none
  | (k₁, a) :: t, k => if k = k₁ then some a else findA t k

/-- Counter state for one (encoder, decoder) combination (`combAgg`). -/
structure CombAgg where
  tests : ℕ
  successes : ℕ
  capacitySkips : ℕ
  encMs : ℚ
  decMs : ℚ
deriving DecidableEq, Repr

/-- Zero value of `CombAgg` (`&combAgg{}`). -/
def CombAgg.init : CombAgg :=
  { tests := 0, successes := 0, capacitySkips := 0, encMs := 0, decMs := 0 }

/-- The per-record counter update of `computeCombinations`. -/
def CombAgg.step (r : RawTestResult) (a : CombAgg) : CombAgg :=
  { tests := a.tests + 1
    successes := a.successes + (if r.success then 1 else 0)
    capacitySkips := a.capacitySkips + (if r.isCapacityExceeded then 1 else 0)
    encMs := a.encMs + r.encodeTimeMs
    decMs := a.decMs + r.decodeTimeMs }

/-- The percentage success rate shared by all aggregation levels:
`float64(successes) / float64(effectiveTests) * 100` when
`effectiveTests > 0`, else 0, with `effectiveTests = tests - capacitySkips`
computed in Go `int` arithmetic (modelled in ℤ). -/
def percentRate (successes : ℕ) (effectiveTests : ℤ) : ℚ :=
  if 0 < effectiveTests then (successes : ℚ) / (effectiveTests : ℚ) * 100 else 0

/-- Embeds `CombinationResult` (matrix entry of combinations.json). -/
structure CombinationResult where
  encoder : String
  decoder : String
  successRate : ℚ
  tests : ℕ
  successes : ℕ
  capacitySkips : ℕ
  effectiveTests : ℤ
  avgEncodeMs : ℚ
  avgDecodeMs : ℚ
deriving DecidableEq, Repr

/-- Go zero value of `CombinationResult`, the initial `best` of
`computeCombinations`. -/
def CombinationResult.zero : CombinationResult :=
  { encoder := "", decoder := "", successRate := 0, tests := 0, successes := 0
    capacitySkips := 0, effectiveTests := 0, avgEncodeMs := 0, avgDecodeMs := 0 }

/-- Embeds `BestCombination`. -/
structure BestCombination where
  encoder : String
  decoder : String
  successRate : ℚ
deriving DecidableEq, Repr

/-- Embeds `CombinationsData`. -/
structure CombinationsData where
  matrix : List CombinationResult
  best : BestCombination

/-- The body of the `for key, a := range agg` loop of `computeCombinations`,
producing one matrix entry from one aggregated counter. The Go key is the
string `encoder + "|" + decoder` split back at the first bar; adapter names
contain no bar, so the pair key is equivalent. -/
def mkCombinationResult (k : String × String) (a : CombAgg) : CombinationResult :=
  let effectiveTests : ℤ := (a.tests : ℤ) - (a.capacitySkips : ℤ)
  { encoder := k.1
    decoder := k.2
    successRate := percentRate a.successes effectiveTests
    tests := a.tests
    successes := a.successes
    capacitySkips := a.capacitySkips
    effectiveTests := effectiveTests
    avgEncodeMs := if 0 < a.tests then a.encMs / (a.tests : ℚ) else 0
    avgDecodeMs := if 0 < a.tests then a.decMs / (a.tests : ℚ) else 0 }

/-- The aggregated combination entries in first-seen key order: the matrix
rows of `computeCombinations` before its final sort. -/
def combinationEntries (results : List RawTestResult) : List CombinationResult :=
  (aggFold (fun r => (r.encoder, r.decoder)) CombAgg.step CombAgg.init results).map
    fun e => mkCombinationResult e.1 e.2

/-- The best-selection scan of `computeCombinations`:
`if rate > best.SuccessRate { best = cr }` starting from the zero value. -/
def selectBest (entries : List CombinationResult) : CombinationResult :=
  entries.foldl (fun best cr => if best.successRate < cr.successRate then cr else best)
    CombinationResult.zero

/-- Descending insertion by success rate, realising the aggregator's
`sort.Slice(..., rate[i] > rate[j])` calls. -/
def insertDescByRate {α : Type} (measure : α → ℚ) (x : α) : List α → List α
  | [] => [x]
  | y :: t => if measure y < measure x then x :: y :: t else y :: insertDescByRate measure x t

/-- Sort descending by a rational measure (insertion sort). -/
def sortDescByRate {α : Type} (measure : α → ℚ) (l : List α) : List α :=
  l.foldr (insertDescByRate measure) []

/-- Embeds `computeCombinations`: aggregate per (encoder, decoder) key,
build the matrix entries, track the best entry with a strict comparison
starting from the zero value, and sort the matrix by success rate
descending. -/
def computeCombinations (results : List RawTestResult) : CombinationsData :=
  let entries := combinationEntries results
  let best := selectBest entries
  { matrix := sortDescByRate (fun c => c.successRate) entries
    best :=
      { encoder := best.encoder
        decoder := best.decoder
        successRate := best.successRate } }

/-- Counter state of the nested per-paired-adapter breakdown
(`struct{ tests, successes, capacitySkips int }`). -/
structure SubAgg where
  tests : ℕ
  successes : ℕ
  capacitySkips : ℕ
deriving DecidableEq, Repr

/-- Zero value of `SubAgg`. -/
def SubAgg.init : SubAgg := { tests := 0, successes := 0, capacitySkips := 0 }

/-- The per-record update of a nested breakdown counter. -/
def SubAgg.step (r : RawTestResult) (a : SubAgg) : SubAgg :=
  { tests := a.tests + 1
    successes := a.successes + (if r.success then 1 else 0)
    capacitySkips := a.capacitySkips + (if r.isCapacityExceeded then 1 else 0) }

/-- Counter state for one encoder (`encoderAgg`), including the nested
by-decoder map (modelled as an association list in first-insertion order). -/
structure EncoderAgg where
  totalTests : ℕ
  successes : ℕ
  capacitySkips : ℕ
  totalEncMs : ℚ
  byDecoder : List (String × SubAgg)
deriving DecidableEq, Repr

/-- Zero value of `EncoderAgg`. -/
def EncoderAgg.init : EncoderAgg :=
  { totalTests := 0, successes := 0, capacitySkips := 0, totalEncMs := 0, byDecoder := [] }

/-- The per-record update of `computeEncoderStats`. -/
def EncoderAgg.step (r : RawTestResult) (a : EncoderAgg) : EncoderAgg :=
  { totalTests := a.totalTests + 1
    successes := a.successes + (if r.success then 1 else 0)
    capacitySkips := a.capacitySkips + (if r.isCapacityExceeded then 1 else 0)
    totalEncMs := a.totalEncMs + r.encodeTimeMs
    byDecoder := updAssoc r.decoder (SubAgg.step r) SubAgg.init a.byDecoder }

/-- Embeds `DecoderBreakdown` / `EncoderBreakdown` (same four-field shape). -/
structure Breakdown where
  successRate : ℚ
  tests : ℕ
  successes : ℕ
  capacitySkips : ℕ
  effectiveTests : ℤ
deriving DecidableEq, Repr

/-- One breakdown row from one nested counter. -/
def mkBreakdown (a : SubAgg) : Breakdown :=
  let effectiveTests : ℤ := (a.tests : ℤ) - (a.capacitySkips : ℤ)
  { successRate := percentRate a.successes effectiveTests
    tests := a.tests
    successes := a.successes
    capacitySkips := a.capacitySkips
    effectiveTests := effectiveTests }

/-- Embeds `EncoderStats` (the by-decoder map as an association list). -/
structure EncoderStats where
  name : String
  successRate : ℚ
  avgEncodeMs : ℚ
  totalTests : ℕ
  successCount : ℕ
  capacitySkips : ℕ
  effectiveTests : ℤ
  byDecoder : List (String × Breakdown)
deriving DecidableEq, Repr

/-- One `EncoderStats` row from one aggregated counter: the body of the
`for name, a := range agg` loop of `computeEncoderStats`. -/
def mkEncoderStats (name : String) (a : EncoderAgg) : EncoderStats :=
  let effectiveTests : ℤ := (a.totalTests : ℤ) - (a.capacitySkips : ℤ)
  { name := name
    successRate := percentRate a.successes effectiveTests
    avgEncodeMs := if 0 < a.totalTests then a.totalEncMs / (a.totalTests : ℚ) else 0
    totalTests := a.totalTests
    successCount := a.successes
    capacitySkips := a.capacitySkips
    effectiveTests := effectiveTests
    byDecoder := a.byDecoder.map fun e => (e.1, mkBreakdown e.2) }

/-- Embeds `computeEncoderStats`: aggregate per encoder name, emit one stats
row per aggregated entry, and sort by success rate descending. -/
def computeEncoderStats (results : List RawTestResult) : List EncoderStats :=
  let agg := aggFold (fun r => r.encoder) EncoderAgg.step EncoderAgg.init results
  sortDescByRate (fun s => s.successRate) (agg.map fun e => mkEncoderStats e.1 e.2)

/-- Counter state for one decoder (`decoderAgg`), mirror image of
`EncoderAgg` with decode-time totals and a by-encoder breakdown. -/
structure DecoderAgg where
  totalTests : ℕ
  successes : ℕ
  capacitySkips : ℕ
  totalDecMs : ℚ
  byEncoder : List (String × SubAgg)
deriving DecidableEq, Repr

/-- Zero value of `DecoderAgg`. -/
def DecoderAgg.init : DecoderAgg :=
  { totalTests := 0, successes := 0, capacitySkips := 0, totalDecMs := 0, byEncoder := [] }

/-- The per-record update of `computeDecoderStats`. -/
def DecoderAgg.step (r : RawTestResult) (a : DecoderAgg) : DecoderAgg :=
  { totalTests := a.totalTests + 1
    successes := a.successes + (if r.success then 1 else 0)
    capacitySkips := a.capacitySkips + (if r.isCapacityExceeded then 1 else 0)
    totalDecMs := a.totalDecMs + r.decodeTimeMs
    byEncoder := updAssoc r.encoder (SubAgg.step r) SubAgg.init a.byEncoder }

/-- Embeds `DecoderStats`. -/
structure DecoderStats where
  name : String
  successRate : ℚ
  avgDecodeMs : ℚ
  totalTests : ℕ
  successCount : ℕ
  capacitySkips : ℕ
  effectiveTests : ℤ
  byEncoder : List (String × Breakdown)
deriving DecidableEq, Repr

/-- One `DecoderStats` row from one aggregated counter. -/
def mkDecoderStats (name : String) (a : DecoderAgg) : DecoderStats :=
  let effectiveTests : ℤ := (a.totalTests : ℤ) - (a.capacitySkips : ℤ)
  { name := name
    successRate := percentRate a.successes effectiveTests
    avgDecodeMs := if 0 < a.totalTests then a.totalDecMs / (a.totalTests : ℚ) else 0
    totalTests := a.totalTests
    successCount := a.successes
    capacitySkips := a.capacitySkips
    effectiveTests := effectiveTests
    byEncoder := a.byEncoder.map fun e => (e.1, mkBreakdown e.2) }

/-- Embeds `computeDecoderStats`. -/
def computeDecoderStats (results : List RawTestResult) : List DecoderStats :=
  let agg := aggFold (fun r => r.decoder) DecoderAgg.step DecoderAgg.init results
  sortDescByRate (fun s => s.successRate) (agg.map fun e => mkDecoderStats e.1 e.2)

/-- Embeds `SummaryData`, restricted to the computed aggregate fields (the
timestamp is wall-clock output outside the verified surface). -/
structure SummaryData where
  totalTests : ℕ
  totalSuccesses : ℕ
  capacitySkips : ℕ
  effectiveTests : ℤ
  overallRate : ℚ
  bestEncoder : String
  bestDecoder : String
  bestCombination : BestCombination
  encoderCount : ℕ
  decoderCount : ℕ
deriving DecidableEq, Repr

/-- Embeds `computeSummary`: one counting pass over the results (modelled by
the same loop as the source: a fold bumping the success and capacity
counters), the overall percentage rate guarded by `effectiveTests > 0`, and
the best encoder/decoder read off the head of the rate-sorted stats. -/
def computeSummary (results : List RawTestResult) (encoderStats : List EncoderStats)
    (decoderStats : List DecoderStats) (combinations : CombinationsData) : SummaryData :=
  let counters :=
    results.foldl
      (fun (c : ℕ × ℕ) r =>
        (c.1 + (if r.success then 1 else 0), c.2 + (if r.isCapacityExceeded then 1 else 0)))
      (0, 0)
  let total := results.length
  let successes := counters.1
  let capacitySkips := counters.2
  let effectiveTests : ℤ := (total : ℤ) - (capacitySkips : ℤ)
  { totalTests := total
    totalSuccesses := successes
    capacitySkips := capacitySkips
    effectiveTests := effectiveTests
    overallRate := percentRate successes effectiveTests
    bestEncoder := match encoderStats with | [] => "" | s :: _ => s.name
    bestDecoder := match decoderStats with | [] => "" | s :: _ => s.name
    bestCombination := combinations.best
    encoderCount := encoderStats.length
    decoderCount := decoderStats.length }

/-- The success-rate formula exactly as claim C4 words it, over an outcome
list: successes / (total − capacitySkips), and 0 when total equals
capacitySkips. Stated from the claim, to be compared with the rates the
aggregator computes. -/
def claimedSuccessRate (l : List RawTestResult) : ℚ :=
  if (l.countP fun r => r.isCapacityExceeded) < l.length then
    ((l.countP fun r => r.success : ℕ) : ℚ) /
      (((l.length : ℕ) : ℚ) - ((l.countP fun r => r.isCapacityExceeded : ℕ) : ℚ))
  else 0

/-- The percentage success-rate formula over an outcome list, as the
amended claim C4 states it: 100 × successes / (total − capacitySkips), and 0
when total equals capacitySkips. -/
def percentSuccessRate (l : List RawTestResult) : ℚ :=
  if (l.countP fun r => r.isCapacityExceeded) < l.length then
    ((l.countP fun r => r.success : ℕ) : ℚ) /
      (((l.length : ℕ) : ℚ) - ((l.countP fun r => r.isCapacityExceeded : ℕ) : ℚ)) * 100
  else 0

/-! ## Concrete fixtures for witnesses and counterexamples -/

/-- A sample aggregator input record: encoder "A", decoder "B", successful,
not capacity-limited. -/
def sampleRaw : RawTestResult :=
  { encoder := "A", decoder := "B", dataSize := 500, pixelSize := 320
    contentType := "binary", success := true, errorType := ""
    isCapacityExceeded := false, encodeTimeMs := 1, decodeTimeMs := 2 }

/-- A sample runner outcome: success at 500 bytes / 320 px. -/
def sampleResult : TestResult :=
  { encoderName := "skip2", decoderName := "gozxing", dataSize := 500
    pixelSize := 320, contentType := "binary", errorCorrectionLevel := ""
    qrVersion := -1, moduleCount := 0, modulePixelSize := 0
    isFractionalModule := false, encodeTime := 1, decodeTime := 1
    error := none, isCapacityExceeded := false }

/-- A trivial encoder over the unit image type, used to instantiate runner
theorems concretely. -/
def sampleEncoder : Encoder Unit :=
  { name := "skip2"
    encode := fun _ _ => .ok ()
    isCapacityError := fun _ => false
    encodeDuration := fun _ _ => 1 }

/-- A trivial decoder over the unit image type that echoes a fixed payload. -/
def sampleDecoder : Decoder Unit :=
  { name := "gozxing"
    decode := fun _ => .ok []
    decodeDuration := fun _ => 1 }

/-- A sample test case: empty binary payload at 320 px. -/
def sampleCase : TestCase :=
  { name := "binary-0b-320px-ecM", data := [], dataSize := 0, pixelSize := 320
    contentType := 2, errorCorrectionLevel := "M" }

/-- A misconfigured runner with no encoders (one decoder, one test case). -/
def emptyEncodersRunner : Runner Unit :=
  { encoders := []
    decoders := [sampleDecoder]
    testCases := [sampleCase]
    config := { timeout := 10 } }

/-- A failed (non-capacity) aggregator input record for the same pair. -/
def failRaw : RawTestResult := { sampleRaw with success := false }

/-- A failing outcome at 400 px (same data size as `sampleResult`). -/
def res400F : TestResult :=
  { sampleResult with pixelSize := 400, error := some (TestError.decodeErr "decode failed") }

/-- A failing outcome at 440 px (same data size as `sampleResult`). -/
def res440F : TestResult :=
  { sampleResult with pixelSize := 440, error := some (TestError.decodeErr "decode failed") }

/-- A failing outcome at 480 px (same data size as `sampleResult`). -/
def res480F : TestResult :=
  { sampleResult with pixelSize := 480, error := some (TestError.decodeErr "decode failed") }

/-- A successful outcome at 480 px (same data size as `sampleResult`). -/
def res480S : TestResult := { sampleResult with pixelSize := 480 }

/-- A well-formed runner with one encoder, one decoder and one test case. -/
def singleRunner : Runner Unit :=
  { encoders := [sampleEncoder]
    decoders := [sampleDecoder]
    testCases := [sampleCase]
    config := { timeout := 10 } }

/-! ## Theorems -/

/-- C2: for every version in [1,40], `CalculateModuleCount version` equals
`17 + 4 * version`; for every version outside [1,40] it returns the
invalid-input sentinel 0 (the function is total, hence never throws). -/
theorem claim2_moduleCount (version : ℤ) :
    (1 ≤ version → version ≤ 40 → CalculateModuleCount version = 17 + 4 * version) ∧
    ((version < 1 ∨ 40 < version) → CalculateModuleCount version = 0) := by
  constructor
  · intro h1 h2
    unfold CalculateModuleCount
    rw [if_neg]
    omega
  · intro h
    unfold CalculateModuleCount
    rw [if_pos]
    omega

/-- Witness for C2 at version 7 (inside the range) and 45 (outside). -/
theorem claim2_moduleCount_witness :
    CalculateModuleCount 7 = 17 + 4 * 7 ∧ CalculateModuleCount 45 = 0 :=
  ⟨(claim2_moduleCount 7).1 (by norm_num) (by norm_num),
   (claim2_moduleCount 45).2 (by norm_num)⟩

/-- C1: for moduleCount > 0 and quietZone ≥ 0, `CalculateOptimalPixelSize`
returns a positive multiple of `moduleCount + quietZone` that is at least
100, and feeding it back through `CalculateModulePixelSize` yields a
non-fractional value; for moduleCount ≤ 0 or quietZone < 0 it returns 0. -/
theorem claim1_optimalPixelSize (moduleCount quietZone : ℤ) :
    (0 < moduleCount → 0 ≤ quietZone →
      (∃ k : ℤ, 0 < k ∧
          CalculateOptimalPixelSize moduleCount quietZone = (moduleCount + quietZone) * k) ∧
      100 ≤ CalculateOptimalPixelSize moduleCount quietZone ∧
      0 < CalculateOptimalPixelSize moduleCount quietZone ∧
      IsFractionalModuleSize
        (CalculateModulePixelSize (CalculateOptimalPixelSize moduleCount quietZone)
          moduleCount quietZone) = false) ∧
    ((moduleCount ≤ 0 ∨ quietZone < 0) → CalculateOptimalPixelSize moduleCount quietZone = 0) := by
  constructor
  · intro hm hq
    set t : ℤ := moduleCount + quietZone with ht_def
    have ht : 0 < t := by omega
    have hres : CalculateOptimalPixelSize moduleCount quietZone = t * ((100 + t - 1) / t) := by
      unfold CalculateOptimalPixelSize
      rw [if_neg (by omega)]
    set mult : ℤ := (100 + t - 1) / t with hmult_def
    have hdm := Int.ediv_add_emod (100 + t - 1) t
    have hmlt : (100 + t - 1) % t < t := Int.emod_lt_of_pos _ ht
    have hmnn : 0 ≤ (100 + t - 1) % t := Int.emod_nonneg _ (ne_of_gt ht)
    have h100 : 100 ≤ t * mult := by
      rw [hmult_def]
      nlinarith [hdm, hmlt, hmnn]
    have hmultpos : 0 < mult := by
      by_contra hcon
      push_neg at hcon
      nlinarith [h100, ht]
    have hge : 100 ≤ CalculateOptimalPixelSize moduleCount quietZone := by
      rw [hres]; exact h100
    have hpos : 0 < CalculateOptimalPixelSize moduleCount quietZone := by omega
    refine ⟨⟨mult, hmultpos, hres⟩, hge, hpos, ?_⟩
    have hpix : CalculateModulePixelSize (CalculateOptimalPixelSize moduleCount quietZone)
        moduleCount quietZone = ((mult : ℤ) : ℚ) := by
      unfold CalculateModulePixelSize
      rw [if_neg (by omega)]
      rw [hres, ht_def]
      have hne : ((moduleCount : ℚ) + (quietZone : ℚ)) ≠ 0 := by
        have hpos2 : (0 : ℤ) < moduleCount + quietZone := by omega
        have := ne_of_gt hpos2
        exact_mod_cast this
      push_cast
      exact mul_div_cancel_left₀ _ hne
    rw [hpix]
    unfold IsFractionalModuleSize
    simp
  · intro h
    unfold CalculateOptimalPixelSize
    rw [if_pos h]

/-- Witness for C1 at moduleCount 77, quietZone 4 (version 15 geometry):
the optimal pixel size exists, is ≥ 100, positive, a multiple of 81, and
round-trips to a non-fractional module size; the concrete value is 162. -/
theorem claim1_optimalPixelSize_witness :
    ((∃ k : ℤ, 0 < k ∧ CalculateOptimalPixelSize 77 4 = (77 + 4) * k) ∧
      100 ≤ CalculateOptimalPixelSize 77 4 ∧
      0 < CalculateOptimalPixelSize 77 4 ∧
      IsFractionalModuleSize
        (CalculateModulePixelSize (CalculateOptimalPixelSize 77 4) 77 4) = false) ∧
    CalculateOptimalPixelSize 77 4 = 162 := by
  refine ⟨(claim1_optimalPixelSize 77 4).1 (by norm_num) (by norm_num), ?_⟩
  unfold CalculateOptimalPixelSize
  norm_num

/-- Reading fewer bytes from the same reader state yields a prefix of
reading more bytes: the byte stream depends only on the source, not on the
requested length. -/
theorem goRandRead_prefix (src : ℕ → ℕ) :
    ∀ (n m ctr pos val : ℕ), n ≤ m →
      goRandRead src ctr pos val n <+: goRandRead src ctr pos val m := by
  intro n
  induction n with
  | zero => intro m ctr pos val _; simp [goRandRead]
  | succ k ih =>
      intro m ctr pos val hnm
      obtain ⟨m₁, rfl⟩ : ∃ m₁, m = m₁ + 1 := ⟨m - 1, by omega⟩
      have hk : k ≤ m₁ := by omega
      by_cases hpos : pos = 0
      · simp only [goRandRead, hpos, if_pos rfl]
        exact (List.cons_prefix_cons).2 ⟨rfl, ih m₁ (ctr + 1) 6 (src ctr / 256) hk⟩
      · simp only [goRandRead, if_neg hpos]
        exact (List.cons_prefix_cons).2 ⟨rfl, ih m₁ ctr (pos - 1) (val / 256) hk⟩

/-- C9: `generateBinary` is deterministic — two calls with the same size
over the fixed-seed source stream return byte-identical payloads — and for
sizes 0 < a ≤ b the shorter payload is a byte-for-byte prefix of the longer
one. `src` is the Int63 output stream of the fixed-seed source
`rand.NewSource 42`, identical for every call by construction. -/
theorem claim9_generateBinary_deterministic_prefix (src : ℕ → ℕ) (a b : ℤ)
    (ha : 0 < a) (hab : a ≤ b) :
    generateBinary src a = generateBinary src a ∧
      generateBinary src a <+: generateBinary src b := by
  refine ⟨rfl, ?_⟩
  unfold generateBinary
  rw [if_neg (by omega), if_neg (by omega)]
  exact goRandRead_prefix src a.toNat b.toNat 0 0 0 (by omega)

/-- Witness for C9 at sizes 500 and 550 over a concrete source stream. -/
theorem claim9_generateBinary_witness :
    generateBinary (fun i => i) 500 = generateBinary (fun i => i) 500 ∧
      generateBinary (fun i => i) 500 <+: generateBinary (fun i => i) 550 :=
  claim9_generateBinary_deterministic_prefix (fun i => i) 500 550 (by norm_num) (by norm_num)

/-- C5 (refuted; code bug): the per-triple outcome produced by
`Runner.runTest` is invariant under the configured `Config.Timeout` — the
runner never consults the timeout, so a decode invocation that takes longer
than the timeout is NOT cut off and NOT converted into a decode failure; the
decoder's eventual result is reported unchanged. This contradicts the
config documentation ("Timeout sets the maximum duration for each decoder
operation") and the README ("Each decoder call has a timeout"). -/
theorem claim5_timeout_never_applied {Image : Type} (r : Runner Image)
    (cfg₁ cfg₂ : Config) (testCase : TestCase) (enc : Encoder Image) (dec : Decoder Image) :
    ({ r with config := cfg₁ } : Runner Image).runTest testCase enc dec =
      ({ r with config := cfg₂ } : Runner Image).runTest testCase enc dec := rfl

/-- C6: `RunAll` with zero encoders, zero decoders or zero test cases
returns a configuration error and never a matrix: no triple is executed and
the error is not folded into any per-triple outcome. -/
theorem claim6_runAll_failFast {Image : Type} (r : Runner Image)
    (h : r.encoders = [] ∨ r.decoders = [] ∨ r.testCases = []) :
    (∃ msg, r.RunAll = Except.error msg) ∧ ∀ m, r.RunAll ≠ Except.ok m := by
  have herr : ∃ msg, r.RunAll = Except.error msg := by
    unfold Runner.RunAll
    by_cases h1 : r.encoders.length = 0
    · exact ⟨"no encoders provided", by rw [if_pos h1]⟩
    · rw [if_neg h1]
      by_cases h2 : r.decoders.length = 0
      · exact ⟨"no decoders provided", by rw [if_pos h2]⟩
      · rw [if_neg h2]
        have h3 : r.testCases.length = 0 := by
          rcases h with h | h | h
          · exact absurd (by simp [h]) h1
          · exact absurd (by simp [h]) h2
          · simp [h]
        exact ⟨"no test cases provided", by rw [if_pos h3]⟩
  refine ⟨herr, ?_⟩
  intro m hm
  obtain ⟨msg, hmsg⟩ := herr
  rw [hmsg] at hm
  exact Except.noConfusion hm

/-- Witness for C6: the runner with no encoders (one decoder, one test
case) is rejected with a configuration error and yields no matrix. -/
theorem claim6_runAll_failFast_witness :
    (∃ msg, emptyEncodersRunner.RunAll = Except.error msg) ∧
      ∀ m, emptyEncodersRunner.RunAll ≠ Except.ok m :=
  claim6_runAll_failFast emptyEncodersRunner (Or.inl rfl)

/-- C10: the runner invokes the encoder with hard-coded error correction
level "M": two runs of `runTest` on test cases differing only in their
declared `ErrorCorrectionLevel` field produce identical outcomes, so the
declared level never influences the outcome. -/
theorem claim10_ecLevel_ignored {Image : Type} (r : Runner Image) (testCase : TestCase)
    (lvl₁ lvl₂ : String) (enc : Encoder Image) (dec : Decoder Image) :
    r.runTest { testCase with errorCorrectionLevel := lvl₁ } enc dec =
      r.runTest { testCase with errorCorrectionLevel := lvl₂ } enc dec := rfl

/-- Summing an indicator over a list counts the satisfying elements. -/
theorem sum_map_ite_one {α : Type} (q : α → Prop) [DecidablePred q] (l : List α) :
    (l.map fun x => if q x then (1 : ℕ) else 0).sum = l.countP fun x => decide (q x) := by
  induction l with
  | nil => rfl
  | cons a t ih =>
      by_cases h : q a <;> simp [List.countP_cons, h, ih, Nat.add_comm]

/-- In a list whose image under `f` has no duplicates, exactly one element
shares its `f`-value with a given member. -/
theorem countP_key_unique {α β : Type} [DecidableEq β] (f : α → β) :
    ∀ l : List α, (l.map f).Nodup → ∀ x ∈ l,
      (l.countP fun y => decide (f y = f x)) = 1 := by
  intro l
  induction l with
  | nil => intro _ x hx; cases hx
  | cons a t ih =>
      intro hnd x hx
      rw [List.map_cons, List.nodup_cons] at hnd
      rcases List.mem_cons.1 hx with rfl | hx
      · rw [List.countP_cons_of_pos _ _ (by simp)]
        have hz : t.countP (fun y => decide (f y = f x)) = 0 :=
          List.countP_eq_zero.2 fun y hy hpy => hnd.1 (by
            simp only [decide_eq_true_eq] at hpy
            exact hpy ▸ List.mem_map_of_mem f hy)
        simp [hz]
      · have hne : ¬ f a = f x := fun heq => hnd.1 (heq ▸ List.mem_map_of_mem f hx)
        rw [List.countP_cons_of_neg _ _ (by simp [hne])]
        exact ih hnd.2 x hx

/-- Summing a constant over a list multiplies it by the length. -/
theorem sum_map_const_nat {α : Type} (l : List α) (c : ℕ) :
    (l.map fun _ => c).sum = l.length * c := by
  induction l with
  | nil => simp
  | cons a t ih => simp [ih, Nat.succ_mul, Nat.add_comm]

/-- The identifying fields of a `runTest` outcome are taken from the
encoder, decoder and test case regardless of how the cycle ends. -/
theorem runTest_key {Image : Type} (r : Runner Image) (tc : TestCase)
    (enc : Encoder Image) (dec : Decoder Image) :
    (r.runTest tc enc dec).encoderName = enc.name ∧
    (r.runTest tc enc dec).decoderName = dec.name ∧
    (r.runTest tc enc dec).dataSize = tc.dataSize ∧
    (r.runTest tc enc dec).pixelSize = tc.pixelSize ∧
    (r.runTest tc enc dec).contentType = contentTypeToString tc.contentType := by
  unfold Runner.runTest
  cases henc : enc.encode tc.data
      { errorCorrectionLevel := ErrorCorrectionM, pixelSize := tc.pixelSize } with
  | error e => simp [henc]
  | ok img =>
      cases hdec : dec.decode img with
      | error e => simp [henc, hdec, DetectQRVersion]
      | ok dd => by_cases h : tc.data ≠ dd <;> simp [henc, hdec, DetectQRVersion, h]

/-- C3: with at least one encoder, decoder and test case, pairwise distinct
adapter names and pairwise distinct test-case identities, `RunAll` returns a
matrix of exactly N·M·K outcomes in which every (encoder, decoder, test
case) key occurs exactly once. -/
theorem claim3_runAll_complete {Image : Type} (r : Runner Image)
    (hE : r.encoders ≠ []) (hD : r.decoders ≠ []) (hT : r.testCases ≠ [])
    (hnE : (r.encoders.map fun e => e.name).Nodup)
    (hnD : (r.decoders.map fun d => d.name).Nodup)
    (hnT : (r.testCases.map fun t =>
      (t.dataSize, t.pixelSize, contentTypeToString t.contentType)).Nodup) :
    ∃ m, r.RunAll = Except.ok m ∧
      m.results.length = r.encoders.length * r.decoders.length * r.testCases.length ∧
      ∀ e ∈ r.encoders, ∀ d ∈ r.decoders, ∀ t ∈ r.testCases,
        m.results.countP (fun res =>
          decide (res.encoderName = e.name ∧ res.decoderName = d.name ∧
            res.dataSize = t.dataSize ∧ res.pixelSize = t.pixelSize ∧
            res.contentType = contentTypeToString t.contentType)) = 1 := by
  have hok : r.RunAll = Except.ok
      { results := r.testCases.flatMap fun testCase =>
          r.encoders.flatMap fun encoder =>
            r.decoders.map fun decoder => r.runTest testCase encoder decoder
        encoders := r.encoders.map fun e => e.name
        decoders := r.decoders.map fun d => d.name
        dataSizes := firstSeenKeys (fun tc => tc.dataSize) r.testCases
        pixelSizes := firstSeenKeys (fun tc => tc.pixelSize) r.testCases } := by
    unfold Runner.RunAll
    rw [if_neg (by simpa using hE), if_neg (by simpa using hD), if_neg (by simpa using hT)]
  refine ⟨_, hok, ?_, ?_⟩
  · rw [List.length_flatMap]
    have hinner : ∀ t : TestCase,
        (r.encoders.flatMap fun encoder =>
          r.decoders.map fun decoder => r.runTest t encoder decoder).length =
        r.encoders.length * r.decoders.length := by
      intro t
      rw [List.length_flatMap]
      have : (r.encoders.map fun encoder =>
          (r.decoders.map fun decoder => r.runTest t encoder decoder).length) =
          r.encoders.map fun _ => r.decoders.length := by
        simp
      simp only [Function.comp_def]
      rw [this, sum_map_const_nat]
    have : (r.testCases.map
        (List.length ∘ fun testCase => r.encoders.flatMap fun encoder =>
          r.decoders.map fun decoder => r.runTest testCase encoder decoder)) =
        r.testCases.map fun _ => r.encoders.length * r.decoders.length := by
      simp only [Function.comp_def]
      exact List.map_congr_left fun t _ => hinner t
    rw [this, sum_map_const_nat]
    ring
  · intro e he d hd t ht
    rw [List.countP_flatMap]
    have houter : (r.testCases.map
        (List.countP (fun res =>
          decide (res.encoderName = e.name ∧ res.decoderName = d.name ∧
            res.dataSize = t.dataSize ∧ res.pixelSize = t.pixelSize ∧
            res.contentType = contentTypeToString t.contentType)) ∘
          fun testCase => r.encoders.flatMap fun encoder =>
          r.decoders.map fun decoder => r.runTest testCase encoder decoder)) =
        r.testCases.map fun t₁ => if (t₁.dataSize, t₁.pixelSize,
          contentTypeToString t₁.contentType) = (t.dataSize, t.pixelSize,
          contentTypeToString t.contentType) then 1 else 0 := by
      refine List.map_congr_left fun t₁ _ => ?_
      simp only [Function.comp_def]
      rw [List.countP_flatMap]
      have hmid : (r.encoders.map
          (List.countP (fun res =>
            decide (res.encoderName = e.name ∧ res.decoderName = d.name ∧
              res.dataSize = t.dataSize ∧ res.pixelSize = t.pixelSize ∧
              res.contentType = contentTypeToString t.contentType)) ∘
            fun encoder => r.decoders.map fun decoder => r.runTest t₁ encoder decoder)) =
          r.encoders.map fun e₁ => if e₁.name = e.name ∧ (t₁.dataSize, t₁.pixelSize,
            contentTypeToString t₁.contentType) = (t.dataSize, t.pixelSize,
            contentTypeToString t.contentType) then 1 else 0 := by
        refine List.map_congr_left fun e₁ _ => ?_
        simp only [Function.comp_def]
        rw [List.countP_map]
        have hcong : (r.decoders.countP fun d₁ =>
            decide ((r.runTest t₁ e₁ d₁).encoderName = e.name ∧
              (r.runTest t₁ e₁ d₁).decoderName = d.name ∧
              (r.runTest t₁ e₁ d₁).dataSize = t.dataSize ∧
              (r.runTest t₁ e₁ d₁).pixelSize = t.pixelSize ∧
              (r.runTest t₁ e₁ d₁).contentType = contentTypeToString t.contentType)) =
            r.decoders.countP fun d₁ =>
            decide (e₁.name = e.name ∧ d₁.name = d.name ∧
              t₁.dataSize = t.dataSize ∧ t₁.pixelSize = t.pixelSize ∧
              contentTypeToString t₁.contentType = contentTypeToString t.contentType) := by
          refine List.countP_congr fun d₁ _ => ?_
          obtain ⟨h1, h2, h3, h4, h5⟩ := runTest_key r t₁ e₁ d₁
          simp [h1, h2, h3, h4, h5]
        rw [Function.comp_def, hcong]
        by_cases hcase : e₁.name = e.name ∧ (t₁.dataSize, t₁.pixelSize,
            contentTypeToString t₁.contentType) = (t.dataSize, t.pixelSize,
            contentTypeToString t.contentType)
        · rw [if_pos hcase]
          obtain ⟨hc1, hc2⟩ := hcase
          have hc3 : t₁.dataSize = t.dataSize := congrArg Prod.fst hc2
          have hc4 : t₁.pixelSize = t.pixelSize := congrArg (fun p => p.2.1) hc2
          have hc5 : contentTypeToString t₁.contentType = contentTypeToString t.contentType :=
            congrArg (fun p => p.2.2) hc2
          have : (r.decoders.countP fun d₁ =>
              decide (e₁.name = e.name ∧ d₁.name = d.name ∧
                t₁.dataSize = t.dataSize ∧ t₁.pixelSize = t.pixelSize ∧
                contentTypeToString t₁.contentType = contentTypeToString t.contentType)) =
              r.decoders.countP fun d₁ => decide (d₁.name = d.name) := by
            refine List.countP_congr fun d₁ _ => ?_
            simp [hc1, hc3, hc4, hc5]
          rw [this]
          exact countP_key_unique (fun d₁ => d₁.name) r.decoders hnD d hd
        · rw [if_neg hcase]
          refine List.countP_eq_zero.2 fun d₁ _ hp => hcase ?_
          simp only [decide_eq_true_eq] at hp
          exact ⟨hp.1, by
            have h3 := hp.2.2.1
            have h4 := hp.2.2.2.1
            have h5 := hp.2.2.2.2
            simp [h3, h4, h5]⟩
      rw [hmid]
      by_cases hcase : (t₁.dataSize, t₁.pixelSize, contentTypeToString t₁.contentType) =
          (t.dataSize, t.pixelSize, contentTypeToString t.contentType)
      · rw [if_pos hcase]
        have : (r.encoders.map fun e₁ => if e₁.name = e.name ∧ (t₁.dataSize, t₁.pixelSize,
            contentTypeToString t₁.contentType) = (t.dataSize, t.pixelSize,
            contentTypeToString t.contentType) then 1 else 0) =
            r.encoders.map fun e₁ => if e₁.name = e.name then 1 else 0 := by
          refine List.map_congr_left fun e₁ _ => ?_
          simp [hcase]
        rw [this, sum_map_ite_one (fun e₁ : Encoder Image => e₁.name = e.name)]
        exact countP_key_unique (fun e₁ => e₁.name) r.encoders hnE e he
      · rw [if_neg hcase]
        have : (r.encoders.map fun e₁ => if e₁.name = e.name ∧ (t₁.dataSize, t₁.pixelSize,
            contentTypeToString t₁.contentType) = (t.dataSize, t.pixelSize,
            contentTypeToString t.contentType) then 1 else 0) =
            r.encoders.map fun _ => (0 : ℕ) := by
          refine List.map_congr_left fun e₁ _ => ?_
          rw [if_neg fun hc => hcase hc.2]
        rw [this, sum_map_const_nat]
        simp
    rw [houter, sum_map_ite_one (fun t₁ : TestCase => (t₁.dataSize, t₁.pixelSize,
      contentTypeToString t₁.contentType) = (t.dataSize, t.pixelSize,
      contentTypeToString t.contentType))]
    exact countP_key_unique
      (fun t₁ : TestCase => (t₁.dataSize, t₁.pixelSize, contentTypeToString t₁.contentType))
      r.testCases hnT t ht

/-- Witness for C3: the 1×1×1 runner produces a matrix with exactly one
outcome carrying its unique key. -/
theorem claim3_runAll_complete_witness :
    ∃ m, singleRunner.RunAll = Except.ok m ∧
      m.results.length =
        singleRunner.encoders.length * singleRunner.decoders.length *
          singleRunner.testCases.length ∧
      ∀ e ∈ singleRunner.encoders, ∀ d ∈ singleRunner.decoders, ∀ t ∈ singleRunner.testCases,
        m.results.countP (fun res =>
          decide (res.encoderName = e.name ∧ res.decoderName = d.name ∧
            res.dataSize = t.dataSize ∧ res.pixelSize = t.pixelSize ∧
            res.contentType = contentTypeToString t.contentType)) = 1 :=
  claim3_runAll_complete singleRunner (by simp [singleRunner]) (by simp [singleRunner])
    (by simp [singleRunner]) (by simp [singleRunner]) (by simp [singleRunner])
    (by simp [singleRunner])

/-- Any key that occurs in the list (or is already collected) survives the
first-seen key collection. -/
theorem mem_firstSeenKeys_aux {α κ : Type} [DecidableEq κ] (keyf : α → κ) :
    ∀ (l : List α) (acc : List κ) (k : κ),
      (k ∈ acc ∨ ∃ x ∈ l, keyf x = k) →
      k ∈ l.foldl (fun ks r => if keyf r ∈ ks then ks else ks ++ [keyf r]) acc := by
  intro l
  induction l with
  | nil =>
      intro acc k h
      rcases h with h | ⟨x, hx, _⟩
      · simpa using h
      · cases hx
  | cons a t ih =>
      intro acc k h
      simp only [List.foldl_cons]
      apply ih
      by_cases hmem : keyf a ∈ acc
      · rw [if_pos hmem]
        rcases h with h | ⟨x, hx, hk⟩
        · exact Or.inl h
        · rcases List.mem_cons.1 hx with rfl | hx
          · exact Or.inl (hk ▸ hmem)
          · exact Or.inr ⟨x, hx, hk⟩
      · rw [if_neg hmem]
        rcases h with h | ⟨x, hx, hk⟩
        · exact Or.inl (List.mem_append_left _ h)
        · rcases List.mem_cons.1 hx with rfl | hx
          · exact Or.inl (by simp [hk])
          · exact Or.inr ⟨x, hx, hk⟩

/-- Every element's key occurs among the first-seen keys. -/
theorem mem_firstSeenKeys {α κ : Type} [DecidableEq κ] (keyf : α → κ) (l : List α)
    (x : α) (hx : x ∈ l) : keyf x ∈ firstSeenKeys keyf l :=
  mem_firstSeenKeys_aux keyf l [] (keyf x) (Or.inr ⟨x, hx, rfl⟩)

/-- Prepending an element preserves a found success-fail-success window. -/
theorem adjacentSFS_cons (l : List TestResult)
    (h : adjacentSuccessFailSuccess l = true) (x : TestResult) :
    adjacentSuccessFailSuccess (x :: l) = true := by
  match l with
  | [] => simp [adjacentSuccessFailSuccess] at h
  | [a] => simp [adjacentSuccessFailSuccess] at h
  | [a, b] => simp [adjacentSuccessFailSuccess] at h
  | a :: b :: c :: t =>
      unfold adjacentSuccessFailSuccess
      rw [h]
      simp

/-- A success-fail-success window anywhere in the list is detected. -/
theorem adjacentSFS_append (l₁ : List TestResult) {a b c : TestResult} (l₂ : List TestResult)
    (ha : a.error = none) (hb : b.error ≠ none) (hc : c.error = none) :
    adjacentSuccessFailSuccess (l₁ ++ a :: b :: c :: l₂) = true := by
  induction l₁ with
  | nil => simp [adjacentSuccessFailSuccess, ha, hb, hc]
  | cons x t ih => exact adjacentSFS_cons _ ih x

/-- C7 counterexample: at outcomes [320:success, 400:fail, 440:fail,
480:success] for one data size, a smaller pixel size succeeds (320), an
intermediate one fails (400), and a larger one succeeds again (480) — the
claim demands true — yet `hasNonMonotonicFailures` returns false, because
the code only inspects three consecutive entries of the pixel-sorted group
and 400:fail is followed by 440:fail. -/
theorem claim7_counterexample :
    hasNonMonotonicFailures [sampleResult, res400F, res440F, res480S] = false ∧
    sampleResult.dataSize = res400F.dataSize ∧ res400F.dataSize = res480S.dataSize ∧
    sampleResult.pixelSize < res400F.pixelSize ∧ res400F.pixelSize < res480S.pixelSize ∧
    sampleResult.error = none ∧ res400F.error ≠ none ∧ res480S.error = none := by
  refine ⟨?_, rfl, rfl, by norm_num [sampleResult, res400F, res480S], by
    norm_num [sampleResult, res400F, res480S], rfl, by simp [res400F], rfl⟩
  decide

/-- C7 (amended): non-monotonic failure detection returns true when the
pixel-size-ascending ordering of one data size's outcomes contains a failure
immediately flanked by successes (three consecutive entries success, fail,
success); in particular [320:success, 400:fail, 480:success] yields true,
and [320:success, 400:fail, 480:fail] (failures monotone above a cutoff)
yields false. -/
theorem claim7_nonMonotonic_amended :
    (∀ (results : List TestResult) (res : TestResult), res ∈ results →
      ∀ (pre : List TestResult) (a b c : TestResult) (post : List TestResult),
        sortAscBy (fun x => x.pixelSize) (results.filter fun x => x.dataSize = res.dataSize) =
          pre ++ a :: b :: c :: post →
        a.error = none → b.error ≠ none → c.error = none →
        hasNonMonotonicFailures results = true) ∧
    hasNonMonotonicFailures [sampleResult, res400F, res480S] = true ∧
    hasNonMonotonicFailures [sampleResult, res400F, res480F] = false := by
  refine ⟨?_, by decide, by decide⟩
  intro results res hres pre a b c post hsort ha hb hc
  unfold hasNonMonotonicFailures
  rw [List.any_eq_true]
  refine ⟨res.dataSize, mem_firstSeenKeys (fun r => r.dataSize) results res hres, ?_⟩
  rw [hsort]
  exact adjacentSFS_append pre post ha hb hc

/-- Witness for C7 (amended) at the spec's own example: the window
[320:success, 400:fail, 480:success] is flagged. -/
theorem claim7_nonMonotonic_witness :
    hasNonMonotonicFailures [sampleResult, res400F, res480S] = true :=
  claim7_nonMonotonic_amended.1 [sampleResult, res400F, res480S] sampleResult
    (by simp) [] sampleResult res400F res480S [] (by decide) rfl (by simp [res400F]) rfl

/-- Updating an association list at a key sets that key's entry to the
update of its previous value (or of the default when absent). -/
theorem findA_updAssoc_self {κ α : Type} [DecidableEq κ] (k : κ) (u : α → α) (init : α) :
    ∀ m : List (κ × α), findA (updAssoc k u init m) k = some (u ((findA m k).getD init)) := by
  intro m
  induction m with
  | nil => simp [updAssoc, findA]
  | cons e t ih =>
      obtain ⟨k₁, a⟩ := e
      by_cases h : k = k₁
      · subst h
        simp [updAssoc, findA]
      · simp [updAssoc, findA, h, ih]

/-- Updating an association list at one key leaves other keys unchanged. -/
theorem findA_updAssoc_ne {κ α : Type} [DecidableEq κ] (k k₁ : κ) (u : α → α) (init : α)
    (hne : k₁ ≠ k) :
    ∀ m : List (κ × α), findA (updAssoc k u init m) k₁ = findA m k₁ := by
  intro m
  induction m with
  | nil => simp [updAssoc, findA, hne]
  | cons e t ih =>
      obtain ⟨k₂, a⟩ := e
      by_cases h : k = k₂
      · subst h
        simp [updAssoc, findA, hne]
      · by_cases h₁ : k₁ = k₂ <;> simp [updAssoc, findA, h, h₁, ih]

/-- Running the aggregation loop over a list extends the entry at each key
by folding the update over exactly the records with that key (present-entry
case). -/
theorem findA_aggLoop_some {ρ κ α : Type} [DecidableEq κ] (keyf : ρ → κ) (u : ρ → α → α)
    (init : α) :
    ∀ (l : List ρ) (m : List (κ × α)) (k : κ) (a : α), findA m k = some a →
      findA (l.foldl (fun acc r => updAssoc (keyf r) (u r) init acc) m) k =
        some ((l.filter fun r => decide (keyf r = k)).foldl (fun acc r => u r acc) a) := by
  intro l
  induction l with
  | nil => intro m k a h; simpa using h
  | cons r t ih =>
      intro m k a h
      simp only [List.foldl_cons]
      by_cases hk : keyf r = k
      · have hstep : findA (updAssoc (keyf r) (u r) init m) k = some (u r a) := by
          rw [← hk] at h ⊢
          rw [findA_updAssoc_self]
          rw [h]
          rfl
        rw [ih _ k (u r a) hstep]
        rw [List.filter_cons_of_pos (by simp [hk])]
        rfl
      · have hstep : findA (updAssoc (keyf r) (u r) init m) k = some a := by
          rw [findA_updAssoc_ne _ _ _ _ (fun hc => hk hc.symm), h]
        rw [ih _ k a hstep]
        rw [List.filter_cons_of_neg (by simp [hk])]

/-- Running the aggregation loop over a list creates the entry at an absent
key exactly when some record carries that key, folding the update over those
records from the default. -/
theorem findA_aggLoop_none {ρ κ α : Type} [DecidableEq κ] (keyf : ρ → κ) (u : ρ → α → α)
    (init : α) :
    ∀ (l : List ρ) (m : List (κ × α)) (k : κ), findA m k = none →
      findA (l.foldl (fun acc r => updAssoc (keyf r) (u r) init acc) m) k =
        match l.filter fun r => decide (keyf r = k) with
        | [] => none
        | f :: fs => some (fs.foldl (fun acc r => u r acc) (u f init)) := by
  intro l
  induction l with
  | nil => intro m k h; simpa using h
  | cons r t ih =>
      intro m k h
      simp only [List.foldl_cons]
      by_cases hk : keyf r = k
      · have hstep : findA (updAssoc (keyf r) (u r) init m) k = some (u r init) := by
          rw [← hk] at h ⊢
          rw [findA_updAssoc_self, h]
          rfl
        rw [findA_aggLoop_some keyf u init t _ k (u r init) hstep]
        rw [List.filter_cons_of_pos (by simp [hk])]
      · have hstep : findA (updAssoc (keyf r) (u r) init m) k = none := by
          rw [findA_updAssoc_ne _ _ _ _ (fun hc => hk hc.symm), h]
        rw [ih _ k hstep]
        rw [List.filter_cons_of_neg (by simp [hk])]

/-- Keys possibly present after an association update: the old keys plus the
updated key. -/
theorem mem_keys_updAssoc {κ α : Type} [DecidableEq κ] (k k₁ : κ) (u : α → α) (init : α) :
    ∀ m : List (κ × α), k₁ ∈ (updAssoc k u init m).map Prod.fst →
      k₁ ∈ m.map Prod.fst ∨ k₁ = k := by
  intro m
  induction m with
  | nil =>
      intro h
      right
      simpa [updAssoc] using h
  | cons e t ih =>
      obtain ⟨k₂, a⟩ := e
      intro h
      by_cases hk : k = k₂
      · subst hk
        have h₂ : k₁ = k ∨ k₁ ∈ t.map Prod.fst := by
          simpa [updAssoc] using h
        rcases h₂ with h₂ | h₂
        · exact Or.inr h₂
        · exact Or.inl (by rw [List.map_cons]; exact List.mem_cons.2 (Or.inr h₂))
      · have h₂ : k₁ = k₂ ∨ k₁ ∈ (updAssoc k u init t).map Prod.fst := by
          simpa [updAssoc, hk] using h
        rcases h₂ with h₂ | h₂
        · exact Or.inl (by rw [List.map_cons]; exact List.mem_cons.2 (Or.inl h₂))
        · rcases ih h₂ with h₃ | h₃
          · exact Or.inl (by rw [List.map_cons]; exact List.mem_cons.2 (Or.inr h₃))
          · exact Or.inr h₃

/-- Association update preserves distinctness of keys. -/
theorem nodup_keys_updAssoc {κ α : Type} [DecidableEq κ] (k : κ) (u : α → α) (init : α) :
    ∀ m : List (κ × α), (m.map Prod.fst).Nodup → ((updAssoc k u init m).map Prod.fst).Nodup := by
  intro m
  induction m with
  | nil => intro _; simp [updAssoc]
  | cons e t ih =>
      obtain ⟨k₂, a⟩ := e
      intro hnd
      simp only [List.map_cons, List.nodup_cons] at hnd
      by_cases hk : k = k₂
      · subst hk
        simpa [updAssoc] using hnd
      · simp only [updAssoc, if_neg hk, List.map_cons, List.nodup_cons]
        refine ⟨fun hc => ?_, ih hnd.2⟩
        rcases mem_keys_updAssoc k k₂ u init t hc with h | h
        · exact hnd.1 h
        · exact hk h.symm

/-- The aggregation loop keeps association keys distinct. -/
theorem nodup_keys_aggLoop {ρ κ α : Type} [DecidableEq κ] (keyf : ρ → κ) (u : ρ → α → α)
    (init : α) :
    ∀ (l : List ρ) (m : List (κ × α)), (m.map Prod.fst).Nodup →
      ((l.foldl (fun acc r => updAssoc (keyf r) (u r) init acc) m).map Prod.fst).Nodup := by
  intro l
  induction l with
  | nil => intro m h; simpa using h
  | cons r t ih =>
      intro m h
      simp only [List.foldl_cons]
      exact ih _ (nodup_keys_updAssoc _ _ _ _ h)

/-- In an association list with distinct keys, membership determines the
lookup. -/
theorem findA_eq_of_mem {κ α : Type} [DecidableEq κ] :
    ∀ (m : List (κ × α)) (k : κ) (a : α), (m.map Prod.fst).Nodup → (k, a) ∈ m →
      findA m k = some a := by
  intro m
  induction m with
  | nil => intro k a _ h; cases h
  | cons e t ih =>
      obtain ⟨k₂, b⟩ := e
      intro k a hnd hmem
      simp only [List.map_cons, List.nodup_cons] at hnd
      rcases List.mem_cons.1 hmem with h | h
      · simp only [Prod.mk.injEq] at h
        obtain ⟨rfl, rfl⟩ := h
        simp [findA]
      · have hne : k ≠ k₂ := by
          rintro rfl
          exact hnd.1 (by simpa using ⟨a, h⟩)
        simp only [findA, if_neg hne]
        exact ih k a hnd.2 h

/-- Folding the combination counter update over a list counts tests,
successes and capacity skips and totals the durations. -/
theorem combAgg_foldl :
    ∀ (fs : List RawTestResult) (a : CombAgg),
      fs.foldl (fun acc r => CombAgg.step r acc) a =
        { tests := a.tests + fs.length
          successes := a.successes + (fs.countP fun r => r.success)
          capacitySkips := a.capacitySkips + (fs.countP fun r => r.isCapacityExceeded)
          encMs := a.encMs + (fs.map fun r => r.encodeTimeMs).sum
          decMs := a.decMs + (fs.map fun r => r.decodeTimeMs).sum } := by
  intro fs
  induction fs with
  | nil => intro a; simp
  | cons r t ih =>
      intro a
      rw [List.foldl_cons, ih]
      simp only [CombAgg.step, List.length_cons, List.countP_cons, List.map_cons, List.sum_cons,
        CombAgg.mk.injEq]
      refine ⟨by omega, ?_, ?_, by ring, by ring⟩
      · by_cases h : r.success <;> simp [h] <;> omega
      · by_cases h : r.isCapacityExceeded <;> simp [h] <;> omega

/-- Folding the nested breakdown counter update counts tests, successes and
capacity skips. -/
theorem subAgg_foldl :
    ∀ (fs : List RawTestResult) (a : SubAgg),
      fs.foldl (fun acc r => SubAgg.step r acc) a =
        { tests := a.tests + fs.length
          successes := a.successes + (fs.countP fun r => r.success)
          capacitySkips := a.capacitySkips + (fs.countP fun r => r.isCapacityExceeded) } := by
  intro fs
  induction fs with
  | nil => intro a; simp
  | cons r t ih =>
      intro a
      rw [List.foldl_cons, ih]
      simp only [SubAgg.step, List.length_cons, List.countP_cons, SubAgg.mk.injEq]
      refine ⟨by omega, ?_, ?_⟩
      · by_cases h : r.success <;> simp [h] <;> omega
      · by_cases h : r.isCapacityExceeded <;> simp [h] <;> omega

/-- Folding the per-encoder counter update counts tests, successes and
capacity skips (the nested by-decoder map is characterised separately). -/
theorem encoderAgg_foldl_counts :
    ∀ (fs : List RawTestResult) (a : EncoderAgg),
      (fs.foldl (fun acc r => EncoderAgg.step r acc) a).totalTests = a.totalTests + fs.length ∧
      (fs.foldl (fun acc r => EncoderAgg.step r acc) a).successes =
        a.successes + (fs.countP fun r => r.success) ∧
      (fs.foldl (fun acc r => EncoderAgg.step r acc) a).capacitySkips =
        a.capacitySkips + (fs.countP fun r => r.isCapacityExceeded) := by
  intro fs
  induction fs with
  | nil => intro a; simp
  | cons r t ih =>
      intro a
      rw [List.foldl_cons]
      obtain ⟨h1, h2, h3⟩ := ih (EncoderAgg.step r a)
      refine ⟨?_, ?_, ?_⟩
      · rw [h1]; simp [EncoderAgg.step, List.countP_cons]; omega
      · rw [h2]
        simp only [EncoderAgg.step, List.countP_cons]
        by_cases h : r.success <;> simp [h] <;> omega
      · rw [h3]
        simp only [EncoderAgg.step, List.countP_cons]
        by_cases h : r.isCapacityExceeded <;> simp [h] <;> omega

/-- Folding the per-decoder counter update counts tests, successes and
capacity skips. -/
theorem decoderAgg_foldl_counts :
    ∀ (fs : List RawTestResult) (a : DecoderAgg),
      (fs.foldl (fun acc r => DecoderAgg.step r acc) a).totalTests = a.totalTests + fs.length ∧
      (fs.foldl (fun acc r => DecoderAgg.step r acc) a).successes =
        a.successes + (fs.countP fun r => r.success) ∧
      (fs.foldl (fun acc r => DecoderAgg.step r acc) a).capacitySkips =
        a.capacitySkips + (fs.countP fun r => r.isCapacityExceeded) := by
  intro fs
  induction fs with
  | nil => intro a; simp
  | cons r t ih =>
      intro a
      rw [List.foldl_cons]
      obtain ⟨h1, h2, h3⟩ := ih (DecoderAgg.step r a)
      refine ⟨?_, ?_, ?_⟩
      · rw [h1]; simp [DecoderAgg.step, List.countP_cons]; omega
      · rw [h2]
        simp only [DecoderAgg.step, List.countP_cons]
        by_cases h : r.success <;> simp [h] <;> omega
      · rw [h3]
        simp only [DecoderAgg.step, List.countP_cons]
        by_cases h : r.isCapacityExceeded <;> simp [h] <;> omega

/-- Membership is preserved by the descending insertion. -/
theorem mem_insertDescByRate {α : Type} (measure : α → ℚ) (x y : α) :
    ∀ l : List α, (y ∈ insertDescByRate measure x l ↔ y = x ∨ y ∈ l) := by
  intro l
  induction l with
  | nil => simp [insertDescByRate]
  | cons z t ih =>
      by_cases h : measure z < measure x
      · simp [insertDescByRate, h]
      · simp only [insertDescByRate, if_neg h, List.mem_cons, ih]
        tauto

/-- Membership is preserved by the descending sort. -/
theorem mem_sortDescByRate {α : Type} (measure : α → ℚ) (y : α) :
    ∀ l : List α, (y ∈ sortDescByRate measure l ↔ y ∈ l) := by
  intro l
  induction l with
  | nil => simp [sortDescByRate]
  | cons z t ih =>
      simp only [sortDescByRate, List.foldr_cons, List.mem_cons]
      rw [mem_insertDescByRate]
      rw [sortDescByRate] at ih
      rw [ih]

/-- The running best of the selection scan never decreases. -/
theorem selectBest_init_le :
    ∀ (l : List CombinationResult) (b : CombinationResult),
      b.successRate ≤ (l.foldl (fun best cr =>
        if best.successRate < cr.successRate then cr else best) b).successRate := by
  intro l
  induction l with
  | nil => intro b; simp
  | cons c t ih =>
      intro b
      rw [List.foldl_cons]
      by_cases h : b.successRate < c.successRate
      · rw [if_pos h]
        exact le_trans (le_of_lt h) (ih c)
      · rw [if_neg h]
        exact ih b

/-- Each scanned entry's rate is bounded by the final best rate. -/
theorem selectBest_mem_le :
    ∀ (l : List CombinationResult) (b x : CombinationResult), x ∈ l →
      x.successRate ≤ (l.foldl (fun best cr =>
        if best.successRate < cr.successRate then cr else best) b).successRate := by
  intro l
  induction l with
  | nil => intro b x hx; cases hx
  | cons c t ih =>
      intro b x hx
      rw [List.foldl_cons]
      rcases List.mem_cons.1 hx with rfl | hx
      · by_cases h : b.successRate < x.successRate
        · rw [if_pos h]
          exact selectBest_init_le t x
        · rw [if_neg h]
          exact le_trans (le_of_not_lt h) (selectBest_init_le t b)
      · by_cases h : b.successRate < c.successRate <;>
          [rw [if_pos h]; rw [if_neg h]] <;> exact ih _ x hx

/-- The selection scan either keeps its initial value (when no rate exceeds
it) or returns the first entry attaining a rate strictly above the initial
value that no earlier entry reaches. -/
theorem selectBest_structure :
    ∀ (l : List CombinationResult) (b : CombinationResult),
      (l.foldl (fun best cr => if best.successRate < cr.successRate then cr else best) b = b ∧
        ∀ x ∈ l, x.successRate ≤ b.successRate) ∨
      ∃ pre c post, l = pre ++ c :: post ∧
        l.foldl (fun best cr => if best.successRate < cr.successRate then cr else best) b = c ∧
        b.successRate < c.successRate ∧ ∀ x ∈ pre, x.successRate < c.successRate := by
  intro l
  induction l with
  | nil => intro b; exact Or.inl ⟨rfl, by simp⟩
  | cons cr t ih =>
      intro b
      rw [List.foldl_cons]
      by_cases h : b.successRate < cr.successRate
      · rw [if_pos h]
        rcases ih cr with ⟨heq, hle⟩ | ⟨pre, c, post, hsplit, heq, hlt, hpre⟩
        · refine Or.inr ⟨[], cr, t, by simp, heq, h, by simp⟩
        · refine Or.inr ⟨cr :: pre, c, post, by rw [hsplit]; rfl, heq,
            lt_trans h hlt, ?_⟩
          intro x hx
          rcases List.mem_cons.1 hx with rfl | hx
          · exact hlt
          · exact hpre x hx
      · rw [if_neg h]
        rcases ih b with ⟨heq, hle⟩ | ⟨pre, c, post, hsplit, heq, hlt, hpre⟩
        · refine Or.inl ⟨heq, ?_⟩
          intro x hx
          rcases List.mem_cons.1 hx with rfl | hx
          · exact le_of_not_lt h
          · exact hle x hx
        · refine Or.inr ⟨cr :: pre, c, post, by rw [hsplit]; rfl, heq, hlt, ?_⟩
          intro x hx
          rcases List.mem_cons.1 hx with rfl | hx
          · exact lt_of_le_of_lt (le_of_not_lt h) hlt
          · exact hpre x hx

/-- The aggregator's guarded percentage formula, written over counts. -/
theorem percentRate_counts (s skips len : ℕ) :
    percentRate s ((len : ℤ) - (skips : ℤ)) =
      if skips < len then
        ((s : ℕ) : ℚ) / (((len : ℕ) : ℚ) - ((skips : ℕ) : ℚ)) * 100
      else 0 := by
  unfold percentRate
  by_cases h : skips < len
  · rw [if_pos (by omega), if_pos h]
    push_cast
    ring
  · rw [if_neg (by omega), if_neg h]

/-- Every combination entry the aggregator emits carries the counts of
exactly the outcomes with its (encoder, decoder) key, and its success rate
is the guarded percentage of those counts. -/
theorem combinationEntries_spec (results : List RawTestResult) (c : CombinationResult)
    (hc : c ∈ combinationEntries results) :
    c.tests = (results.filter fun r =>
      decide (r.encoder = c.encoder ∧ r.decoder = c.decoder)).length ∧
    c.successes = ((results.filter fun r =>
      decide (r.encoder = c.encoder ∧ r.decoder = c.decoder)).countP fun r => r.success) ∧
    c.capacitySkips = ((results.filter fun r =>
      decide (r.encoder = c.encoder ∧ r.decoder = c.decoder)).countP fun r =>
        r.isCapacityExceeded) ∧
    c.successRate = percentRate c.successes ((c.tests : ℤ) - (c.capacitySkips : ℤ)) := by
  unfold combinationEntries at hc
  obtain ⟨⟨k, a⟩, hka, rfl⟩ := List.mem_map.1 hc
  obtain ⟨k1, k2⟩ := k
  have hnd : ((aggFold (fun r => (r.encoder, r.decoder)) CombAgg.step CombAgg.init
      results).map Prod.fst).Nodup := by
    unfold aggFold
    exact nodup_keys_aggLoop _ _ _ results [] (by simp)
  have hfind := findA_eq_of_mem _ (k1, k2) a hnd hka
  have hchar := findA_aggLoop_none (fun r => (r.encoder, r.decoder)) CombAgg.step CombAgg.init
    results [] (k1, k2) rfl
  unfold aggFold at hfind
  rw [hfind] at hchar
  have hfeq : (results.filter fun r => decide ((r.encoder, r.decoder) = (k1, k2))) =
      results.filter fun r => decide (r.encoder = k1 ∧ r.decoder = k2) :=
    List.filter_congr fun r _ => decide_eq_decide.2 (by simp)
  rcases hfilter : results.filter fun r => decide (r.encoder = k1 ∧ r.decoder = k2)
    with _ | ⟨f, fs⟩
  · rw [hfeq, hfilter] at hchar
    cases hchar
  · rw [hfeq, hfilter] at hchar
    have ha : a = (f :: fs).foldl (fun acc r => CombAgg.step r acc) CombAgg.init := by
      rw [List.foldl_cons]
      injection hchar
    rw [combAgg_foldl] at ha
    subst ha
    have hfilter₂ : (results.filter fun r =>
        decide (r.encoder = k1) && decide (r.decoder = k2)) = f :: fs := by
      rw [← hfilter]
      exact List.filter_congr fun r _ => by simp
    refine ⟨?_, ?_, ?_, rfl⟩ <;>
      simp [mkCombinationResult, CombAgg.init, hfilter, hfilter₂]

/-- Every encoder-stats row the aggregator emits carries the counts of
exactly the outcomes with its encoder name, and its success rate is the
guarded percentage of those counts. -/
theorem computeEncoderStats_spec (results : List RawTestResult) (s : EncoderStats)
    (hs : s ∈ computeEncoderStats results) :
    s.totalTests = (results.filter fun r => decide (r.encoder = s.name)).length ∧
    s.successCount = ((results.filter fun r => decide (r.encoder = s.name)).countP fun r =>
      r.success) ∧
    s.capacitySkips = ((results.filter fun r => decide (r.encoder = s.name)).countP fun r =>
      r.isCapacityExceeded) ∧
    s.successRate = percentRate s.successCount ((s.totalTests : ℤ) - (s.capacitySkips : ℤ)) := by
  unfold computeEncoderStats at hs
  rw [mem_sortDescByRate] at hs
  obtain ⟨⟨k, a⟩, hka, rfl⟩ := List.mem_map.1 hs
  simp only [show (mkEncoderStats (k, a).1 (k, a).2).name = k from rfl]
  have hnd : ((aggFold (fun r => r.encoder) EncoderAgg.step EncoderAgg.init
      results).map Prod.fst).Nodup := by
    unfold aggFold
    exact nodup_keys_aggLoop _ _ _ results [] (by simp)
  have hfind := findA_eq_of_mem _ k a hnd hka
  have hchar := findA_aggLoop_none (fun r => r.encoder) EncoderAgg.step EncoderAgg.init
    results [] k rfl
  unfold aggFold at hfind
  rw [hfind] at hchar
  rcases hfilter : results.filter fun r => decide (r.encoder = k) with _ | ⟨f, fs⟩
  · rw [hfilter] at hchar
    cases hchar
  · rw [hfilter] at hchar
    have ha : a = (f :: fs).foldl (fun acc r => EncoderAgg.step r acc) EncoderAgg.init := by
      rw [List.foldl_cons]
      injection hchar
    obtain ⟨h1, h2, h3⟩ := encoderAgg_foldl_counts (f :: fs) EncoderAgg.init
    rw [← ha] at h1 h2 h3
    refine ⟨?_, ?_, ?_, rfl⟩
    · show a.totalTests = _
      rw [h1, hfilter]
      simp [EncoderAgg.init]
    · show a.successes = _
      rw [h2, hfilter]
      simp [EncoderAgg.init]
    · show a.capacitySkips = _
      rw [h3, hfilter]
      simp [EncoderAgg.init]

/-- Every decoder-stats row the aggregator emits carries the counts of
exactly the outcomes with its decoder name, and its success rate is the
guarded percentage of those counts. -/
theorem computeDecoderStats_spec (results : List RawTestResult) (s : DecoderStats)
    (hs : s ∈ computeDecoderStats results) :
    s.totalTests = (results.filter fun r => decide (r.decoder = s.name)).length ∧
    s.successCount = ((results.filter fun r => decide (r.decoder = s.name)).countP fun r =>
      r.success) ∧
    s.capacitySkips = ((results.filter fun r => decide (r.decoder = s.name)).countP fun r =>
      r.isCapacityExceeded) ∧
    s.successRate = percentRate s.successCount ((s.totalTests : ℤ) - (s.capacitySkips : ℤ)) := by
  unfold computeDecoderStats at hs
  rw [mem_sortDescByRate] at hs
  obtain ⟨⟨k, a⟩, hka, rfl⟩ := List.mem_map.1 hs
  simp only [show (mkDecoderStats (k, a).1 (k, a).2).name = k from rfl]
  have hnd : ((aggFold (fun r => r.decoder) DecoderAgg.step DecoderAgg.init
      results).map Prod.fst).Nodup := by
    unfold aggFold
    exact nodup_keys_aggLoop _ _ _ results [] (by simp)
  have hfind := findA_eq_of_mem _ k a hnd hka
  have hchar := findA_aggLoop_none (fun r => r.decoder) DecoderAgg.step DecoderAgg.init
    results [] k rfl
  unfold aggFold at hfind
  rw [hfind] at hchar
  rcases hfilter : results.filter fun r => decide (r.decoder = k) with _ | ⟨f, fs⟩
  · rw [hfilter] at hchar
    cases hchar
  · rw [hfilter] at hchar
    have ha : a = (f :: fs).foldl (fun acc r => DecoderAgg.step r acc) DecoderAgg.init := by
      rw [List.foldl_cons]
      injection hchar
    obtain ⟨h1, h2, h3⟩ := decoderAgg_foldl_counts (f :: fs) DecoderAgg.init
    rw [← ha] at h1 h2 h3
    refine ⟨?_, ?_, ?_, rfl⟩
    · show a.totalTests = _
      rw [h1, hfilter]
      simp [DecoderAgg.init]
    · show a.successes = _
      rw [h2, hfilter]
      simp [DecoderAgg.init]
    · show a.capacitySkips = _
      rw [h3, hfilter]
      simp [DecoderAgg.init]

/-- The single counting pass of `computeSummary` counts successes and
capacity skips. -/
theorem summary_counters :
    ∀ (l : List RawTestResult) (c : ℕ × ℕ),
      l.foldl (fun (c : ℕ × ℕ) r =>
        (c.1 + (if r.success then 1 else 0), c.2 + (if r.isCapacityExceeded then 1 else 0))) c =
      (c.1 + (l.countP fun r => r.success), c.2 + (l.countP fun r => r.isCapacityExceeded)) := by
  intro l
  induction l with
  | nil => intro c; simp
  | cons r t ih =>
      intro c
      rw [List.foldl_cons, ih]
      simp only [List.countP_cons, Prod.mk.injEq]
      constructor
      · by_cases h : r.success <;> simp [h] <;> omega
      · by_cases h : r.isCapacityExceeded <;> simp [h] <;> omega

/-- C4 counterexample: on the single successful outcome `sampleRaw`, the
aggregator's overall success rate is 100 (a percentage) while
successes / (total − capacitySkips) is 1; the claimed equality fails. -/
theorem claim4_counterexample :
    (computeSummary [sampleRaw] (computeEncoderStats [sampleRaw]) (computeDecoderStats [sampleRaw])
        (computeCombinations [sampleRaw])).overallRate = 100 ∧
    claimedSuccessRate [sampleRaw] = 1 ∧
    (computeSummary [sampleRaw] (computeEncoderStats [sampleRaw]) (computeDecoderStats [sampleRaw])
        (computeCombinations [sampleRaw])).overallRate ≠ claimedSuccessRate [sampleRaw] := by
  have h1 : (computeSummary [sampleRaw] (computeEncoderStats [sampleRaw])
      (computeDecoderStats [sampleRaw]) (computeCombinations [sampleRaw])).overallRate = 100 := by
    show percentRate
        (([sampleRaw].foldl (fun (c : ℕ × ℕ) r =>
          (c.1 + (if r.success then 1 else 0),
           c.2 + (if r.isCapacityExceeded then 1 else 0))) (0, 0)).1)
        ((([sampleRaw] : List RawTestResult).length : ℤ) -
          (([sampleRaw].foldl (fun (c : ℕ × ℕ) r =>
            (c.1 + (if r.success then 1 else 0),
             c.2 + (if r.isCapacityExceeded then 1 else 0))) (0, 0)).2 : ℤ)) = 100
    rw [summary_counters]
    norm_num [sampleRaw, percentRate, List.countP_cons]
  have h2 : claimedSuccessRate [sampleRaw] = 1 := by
    norm_num [claimedSuccessRate, sampleRaw, List.countP_cons]
  refine ⟨h1, h2, ?_⟩
  rw [h1, h2]
  norm_num

/-- C4 (amended): every aggregated success rate — overall, per encoder, per
decoder and per (encoder, decoder) combination — equals
100 × successes / (total − capacitySkips) over its group of outcomes, i.e.
the successes/effective ratio expressed as a percentage, and equals 0 when
the group's total equals its capacity skips, with no division-by-zero
fault. -/
theorem claim4_successRate_amended (results : List RawTestResult) :
    (computeSummary results (computeEncoderStats results) (computeDecoderStats results)
        (computeCombinations results)).overallRate = percentSuccessRate results ∧
    (∀ s ∈ computeEncoderStats results,
      s.successRate = percentSuccessRate (results.filter fun r => decide (r.encoder = s.name))) ∧
    (∀ s ∈ computeDecoderStats results,
      s.successRate = percentSuccessRate (results.filter fun r => decide (r.decoder = s.name))) ∧
    (∀ c ∈ (computeCombinations results).matrix,
      c.successRate = percentSuccessRate (results.filter fun r =>
        decide (r.encoder = c.encoder ∧ r.decoder = c.decoder))) := by
  refine ⟨?_, ?_, ?_, ?_⟩
  · show percentRate
        (results.foldl (fun (c : ℕ × ℕ) r =>
          (c.1 + (if r.success then 1 else 0),
           c.2 + (if r.isCapacityExceeded then 1 else 0))) (0, 0)).1
        ((results.length : ℤ) -
          ((results.foldl (fun (c : ℕ × ℕ) r =>
            (c.1 + (if r.success then 1 else 0),
             c.2 + (if r.isCapacityExceeded then 1 else 0))) (0, 0)).2 : ℤ)) =
      percentSuccessRate results
    rw [summary_counters]
    simp only [Nat.zero_add]
    rw [percentRate_counts]
    unfold percentSuccessRate
    rfl
  · intro s hs
    obtain ⟨h1, h2, h3, h4⟩ := computeEncoderStats_spec results s hs
    rw [h4, h1, h2, h3, percentRate_counts]
    unfold percentSuccessRate
    rfl
  · intro s hs
    obtain ⟨h1, h2, h3, h4⟩ := computeDecoderStats_spec results s hs
    rw [h4, h1, h2, h3, percentRate_counts]
    unfold percentSuccessRate
    rfl
  · intro c hc
    rw [show (computeCombinations results).matrix =
      sortDescByRate (fun cr => cr.successRate) (combinationEntries results) from rfl,
      mem_sortDescByRate] at hc
    obtain ⟨h1, h2, h3, h4⟩ := combinationEntries_spec results c hc
    rw [h4, h1, h2, h3, percentRate_counts]
    unfold percentSuccessRate
    rfl

/-- Witness for C4 (amended) on the single successful outcome `sampleRaw`:
the overall rate equals the percentage formula there. -/
theorem claim4_successRate_witness :
    (computeSummary [sampleRaw] (computeEncoderStats [sampleRaw]) (computeDecoderStats [sampleRaw])
        (computeCombinations [sampleRaw])).overallRate = percentSuccessRate [sampleRaw] ∧
    (mkEncoderStats "A" (EncoderAgg.step sampleRaw EncoderAgg.init)).successRate =
      percentSuccessRate ([sampleRaw].filter fun r => decide (r.encoder =
        (mkEncoderStats "A" (EncoderAgg.step sampleRaw EncoderAgg.init)).name)) :=
  ⟨(claim4_successRate_amended [sampleRaw]).1,
   (claim4_successRate_amended [sampleRaw]).2.1
     (mkEncoderStats "A" (EncoderAgg.step sampleRaw EncoderAgg.init))
     (by rw [show computeEncoderStats [sampleRaw] =
         [mkEncoderStats "A" (EncoderAgg.step sampleRaw EncoderAgg.init)] from rfl]
         exact List.mem_singleton.2 rfl)⟩

/-- C8 counterexample: on the single failed (non-capacity) outcome
`failRaw` there is exactly one (encoder, decoder) combination, ("A", "B"),
with success rate 0 — the highest — yet the aggregator's best combination is
the zero-value sentinel with empty adapter names, which is not any actual
combination: the strict comparison `rate > best.SuccessRate` never replaces
the zero-initialised best when every rate is 0. -/
theorem claim8_counterexample :
    ((computeCombinations [failRaw]).matrix.map fun c => (c.encoder, c.decoder)) = [("A", "B")] ∧
    (computeCombinations [failRaw]).best.encoder = "" ∧
    (computeCombinations [failRaw]).best.decoder = "" ∧
    ((computeCombinations [failRaw]).best.encoder, (computeCombinations [failRaw]).best.decoder) ∉
      ((computeCombinations [failRaw]).matrix.map fun c => (c.encoder, c.decoder)) := by
  have hrate : (mkCombinationResult ("A", "B") (CombAgg.step failRaw CombAgg.init)).successRate
      = 0 := by
    norm_num [mkCombinationResult, CombAgg.step, CombAgg.init, percentRate, failRaw, sampleRaw]
  have hsel : selectBest (combinationEntries [failRaw]) = CombinationResult.zero := by
    show (if CombinationResult.zero.successRate <
        (mkCombinationResult ("A", "B") (CombAgg.step failRaw CombAgg.init)).successRate
      then mkCombinationResult ("A", "B") (CombAgg.step failRaw CombAgg.init)
      else CombinationResult.zero) = CombinationResult.zero
    rw [hrate]
    norm_num [CombinationResult.zero]
  have hbest : (computeCombinations [failRaw]).best =
      { encoder := "", decoder := "", successRate := 0 } := by
    show ({ encoder := (selectBest (combinationEntries [failRaw])).encoder
            decoder := (selectBest (combinationEntries [failRaw])).decoder
            successRate := (selectBest (combinationEntries [failRaw])).successRate } :
        BestCombination) = _
    rw [hsel]
    rfl
  refine ⟨rfl, by rw [hbest], by rw [hbest], ?_⟩
  rw [hbest]
  rw [show ((computeCombinations [failRaw]).matrix.map fun c => (c.encoder, c.decoder)) =
    [("A", "B")] from rfl]
  decide

/-- C8 (amended): whenever some (encoder, decoder) combination has a
strictly positive success rate, the aggregator's best combination is an
actual combination with the maximal success rate, and among the aggregated
entries (in first-encounter order of the embedding's fixed map-iteration
order) every entry preceding it has a strictly smaller rate — first-seen
tie-breaking; when every combination's rate is 0 the best is the zero-value
sentinel (see the counterexample). -/
theorem claim8_best_amended (results : List RawTestResult)
    (h : ∃ c ∈ combinationEntries results, 0 < c.successRate) :
    ∃ pre c post, combinationEntries results = pre ++ c :: post ∧
      (computeCombinations results).best =
        { encoder := c.encoder, decoder := c.decoder, successRate := c.successRate } ∧
      (∀ x ∈ pre, x.successRate < c.successRate) ∧
      (∀ x ∈ (computeCombinations results).matrix, x.successRate ≤ c.successRate) ∧
      c ∈ (computeCombinations results).matrix := by
  obtain ⟨c₀, hc₀, hpos⟩ := h
  rcases selectBest_structure (combinationEntries results) CombinationResult.zero with
    ⟨heq, hle⟩ | ⟨pre, c, post, hsplit, heq, hlt, hpre⟩
  · exact absurd hpos (not_lt.2 (hle c₀ hc₀))
  · have hsel : selectBest (combinationEntries results) = c := heq
    refine ⟨pre, c, post, hsplit, ?_, hpre, ?_, ?_⟩
    · show ({ encoder := (selectBest (combinationEntries results)).encoder
              decoder := (selectBest (combinationEntries results)).decoder
              successRate := (selectBest (combinationEntries results)).successRate } :
          BestCombination) = _
      rw [hsel]
    · intro x hx
      rw [show (computeCombinations results).matrix =
        sortDescByRate (fun cr => cr.successRate) (combinationEntries results) from rfl,
        mem_sortDescByRate] at hx
      have hb := selectBest_mem_le (combinationEntries results) CombinationResult.zero x hx
      rw [show (combinationEntries results).foldl (fun best cr =>
        if best.successRate < cr.successRate then cr else best) CombinationResult.zero =
          selectBest (combinationEntries results) from rfl, hsel] at hb
      exact hb
    · rw [show (computeCombinations results).matrix =
        sortDescByRate (fun cr => cr.successRate) (combinationEntries results) from rfl,
        mem_sortDescByRate, hsplit]
      exact List.mem_append.2 (Or.inr (List.mem_cons_self c post))

/-- Witness for C8 (amended) on the single successful outcome `sampleRaw`:
its combination has rate 100 > 0, so the best is that combination. -/
theorem claim8_best_witness :
    ∃ pre c post, combinationEntries [sampleRaw] = pre ++ c :: post ∧
      (computeCombinations [sampleRaw]).best =
        { encoder := c.encoder, decoder := c.decoder, successRate := c.successRate } ∧
      (∀ x ∈ pre, x.successRate < c.successRate) ∧
      (∀ x ∈ (computeCombinations [sampleRaw]).matrix, x.successRate ≤ c.successRate) ∧
      c ∈ (computeCombinations [sampleRaw]).matrix :=
  claim8_best_amended [sampleRaw]
    ⟨mkCombinationResult ("A", "B") (CombAgg.step sampleRaw CombAgg.init),
     by rw [show combinationEntries [sampleRaw] =
         [mkCombinationResult ("A", "B") (CombAgg.step sampleRaw CombAgg.init)] from rfl]
        exact List.mem_singleton.2 rfl,
     by norm_num [mkCombinationResult, CombAgg.step, CombAgg.init, percentRate, sampleRaw]⟩

end QRBench
